import Mathlib

/-
Verification development for the nodegui-builder packaging tool.

The embedding models, from the JavaScript source:
  * the recursive project copier `copyDirRecursive` and its exclusion test
    (the `ignoredDirs` / `shouldIgnore` logic, paths taken relative to the
    original copy root);
  * the dependency-closure resolver `findNestedDependencies` (visited set
    `processedDeps`, result set `allDependencies`), with an explicit fuel
    parameter replacing the JavaScript call stack; a potential function
    `phi` measures the remaining work and is proved to bound the fuel needed;
  * the orchestration of `packageApp` as a trace of filesystem actions with
    an outcome, for both variants of the source (the recursive-copy variant
    and the index.js variant that checks the entry file first).

Strings are modelled with Lean `String`; the path separator is fixed to "/"
(the logic is independent of the concrete separator character).
-/

set_option maxRecDepth 8192

namespace NodeguiBuilder

/-! ## Path helpers -/

def pathSep : String := "/"

/-- JavaScript `s.startsWith(p)`, computed on the character lists. -/
def strStartsWith (s p : String) : Bool := p.data.isPrefixOf s.data

/-- JavaScript `s.endsWith(p)`, computed on the character lists. -/
def strEndsWith (s p : String) : Bool := p.data.isSuffixOf s.data

/-- Join relative-path components with the path separator. -/
def joinRel : List String → String
  | [] => ""
  | [c] => c
  | c :: rest => c ++ pathSep ++ joinRel rest

/-- Split an (absolute) path into its nonempty components. -/
def splitAux : List Char → List Char → List (List Char)
  | [], acc => [acc.reverse]
  | c :: cs, acc => if c = '/' then acc.reverse :: splitAux cs [] else splitAux cs (c :: acc)

def splitPath (s : String) : List String :=
  ((splitAux s.data []).map String.mk).filter (fun c => c ≠ "")

/-- Length of the common component run shared by two paths. -/
def commonLen : List String → List String → Nat
  | a :: as, b :: bs => if a = b then commonLen as bs + 1 else 0
  | _, _ => 0

/-- Node's `path.relative(src, dst)` for resolved absolute paths:
drop the common component run, go up with ".." for what is left of `src`,
then down into what is left of `dst`. -/
def pathRelative (src dst : String) : String :=
  joinRel (List.replicate ((splitPath src).length - commonLen (splitPath src) (splitPath dst)) ".."
    ++ (splitPath dst).drop (commonLen (splitPath src) (splitPath dst)))

/-! ## Directory copier (copyDirRecursive, src/unnamed/part_001 lines 49-99) -/

/-- The exclusion test of `copyDirRecursive`: an entry is skipped when its
path relative to the original copy root equals an exclusion entry, or is
nonempty and starts with an exclusion entry followed by the separator. -/
def shouldIgnore (ignoredDirs : List String) (relativePath : String) : Bool :=
  ignoredDirs.any (fun dir =>
    relativePath == dir || (relativePath != "" && strStartsWith relativePath (dir ++ pathSep)))

/-- The fixed entries of `ignoredDirs`. -/
def baseIgnoredDirs : List String :=
  ["node_modules", ".git", ".github", "coverage", ".vscode", ".idea"]

/-- The full `ignoredDirs` list of `packageApp`: the fixed entries, plus the
relative path of the output directory when the computed application
directory lies inside the source tree and that relative path is nonempty. -/
def computeIgnoredDirs (sourceDirAbs outputDirAbs appName : String) : List String :=
  if strStartsWith (outputDirAbs ++ pathSep ++ appName) (sourceDirAbs ++ pathSep)
      || (outputDirAbs ++ pathSep ++ appName) == sourceDirAbs then
    if pathRelative sourceDirAbs outputDirAbs = "" then baseIgnoredDirs
    else baseIgnoredDirs ++ [pathRelative sourceDirAbs outputDirAbs]
  else baseIgnoredDirs

/-- A directory's contents: a list of named entries, each a file or a
subdirectory (given by its own contents). -/
inductive Forest where
  | nil : Forest
  | file (name : String) (rest : Forest) : Forest
  | dir (name : String) (children : Forest) (rest : Forest) : Forest
deriving DecidableEq

/-- `copyDirRecursive`: walk the entries; each entry's path relative to the
original copy root (`rel` accumulates the components from that root) is
tested against the exclusions; skipped entries are dropped, directories are
recursed into, files are copied. -/
def copyDirRecursive (ignoredDirs : List String) (rel : List String) : Forest → Forest
  | .nil => .nil
  | .file n rest =>
    if shouldIgnore ignoredDirs (joinRel (rel ++ [n])) then
      copyDirRecursive ignoredDirs rel rest
    else .file n (copyDirRecursive ignoredDirs rel rest)
  | .dir n ch rest =>
    if shouldIgnore ignoredDirs (joinRel (rel ++ [n])) then
      copyDirRecursive ignoredDirs rel rest
    else .dir n (copyDirRecursive ignoredDirs (rel ++ [n]) ch) (copyDirRecursive ignoredDirs rel rest)

/-- The relative paths of all files in a directory tree. -/
def filesOf (rel : List String) : Forest → List (List String)
  | .nil => []
  | .file n rest => (rel ++ [n]) :: filesOf rel rest
  | .dir n ch rest => filesOf (rel ++ [n]) ch ++ filesOf rel rest

/-! ## Dependency graph resolver (findNestedDependencies, part_001 lines 151-196) -/

/-- What `node_modules/<name>/package.json` can look like when present:
unparseable (require throws), or parsed with a list of dependency names
(a manifest without a `dependencies` field is `deps []`). -/
inductive Manifest where
  | malformed : Manifest
  | deps (names : List String) : Manifest
deriving DecidableEq

/-- The lookup root: the manifests materialized under `node_modules`.
A name with no entry has no package.json at all. -/
abbrev Root := List (String × Manifest)

def lookupManifest : Root → String → Option Manifest
  | [], _ => none
  | (k, man) :: rest, m => if k = m then some man else lookupManifest rest m

/-- The reserved runtime namespace, always excluded from the generic
dependency path (`@nodegui/` packages are staged separately). -/
def reservedNamespace : String := "@nodegui/"

/-- Resolver state: `visited` is `processedDeps` (insertion order),
`found` is `allDependencies` (insertion order). -/
structure RState where
  visited : List String
  found : List String
deriving DecidableEq

/-- Set-insert keeping first occurrences, as a JavaScript `Set.add`. -/
def insertIfAbsent (l : List String) (x : String) : List String :=
  if x ∈ l then l else l ++ [x]

mutual

/-- `findNestedDependencies(moduleName)`: return at once if already
processed; otherwise mark processed, read the module's manifest (missing or
malformed manifests end the walk for this module without error), and walk
its declared dependencies.  The fuel argument bounds the call depth and is
shown sufficient whenever it exceeds the potential `phi`. -/
def findNestedDependenciesF (R : Root) : Nat → RState → String → Option RState
  | 0, _, _ => none
  | f + 1, s, m =>
    if m ∈ s.visited then some s
    else
      match lookupManifest R m with
      | some (Manifest.deps ds) => findNestedListF R f ⟨s.visited ++ [m], s.found⟩ ds
      | _ => some ⟨s.visited ++ [m], s.found⟩

/-- The loop over a manifest's declared dependencies: reserved-namespace
names are skipped entirely; other names are added to the result set and
recursed into. -/
def findNestedListF (R : Root) : Nat → RState → List String → Option RState
  | 0, _, _ => none
  | _ + 1, s, [] => some s
  | f + 1, s, d :: rest =>
    if strStartsWith d reservedNamespace then findNestedListF R f s rest
    else
      match findNestedDependenciesF R f ⟨s.visited, insertIfAbsent s.found d⟩ d with
      | none => none
      | some s2 => findNestedListF R f s2 rest

end

/-- Work left in one manifest entry: one visit plus its dependency list. -/
def manCost : Manifest → Nat
  | .malformed => 2
  | .deps ds => 2 + ds.length

/-- Potential: total work left in the manifests whose key is unvisited. -/
def phi : Root → List String → Nat
  | [], _ => 0
  | (k, man) :: rest, visited => (if k ∈ visited then 0 else manCost man) + phi rest visited

/-- The top-level loop `for (const dep of directDependencies) await
findNestedDependencies(dep)`, each call given sufficient fuel. -/
def runSeeds (R : Root) (s : RState) : List String → Option RState
  | [] => some s
  | d :: rest =>
    match findNestedDependenciesF R (phi R s.visited + 1) s d with
    | none => none
    | some s' => runSeeds R s' rest

/-- JavaScript `[...new Set(l)]`. -/
def dedupList (l : List String) : List String := l.foldl insertIfAbsent []

/-- The seed set: package.json dependencies merged with `additionalModules`
(deduplicated), with reserved-namespace names filtered out. -/
def seedDependencies (pkgDeps additionalModules : List String) : List String :=
  (dedupList (pkgDeps ++ additionalModules)).filter
    (fun d => !strStartsWith d reservedNamespace)

/-- The dependency closure: `allDependencies` after seeding with the direct
dependencies and walking each of them. -/
def resolveClosure (R : Root) (seeds : List String) : Option (List String) :=
  Option.map RState.found (runSeeds R ⟨[], seeds⟩ seeds)

/-! ## Orchestrator traces -/

/-- The filesystem effects of a packaging run, in order. -/
inductive Action where
  | ensureAppDir : Action
  | emptyAppDir : Action
  | copyProjectTree : Action
  | copyMainFile : Action
  | ensureNodeModules : Action
  | copyQode : Action
  | copyNodeguiNamespace : Action
  | copyDep (name : String) : Action
  | copyDll (name : String) : Action
  | copyPlugin (name : String) : Action
  | writeQtConf : Action
  | writeDebugBat : Action
  | writeHiddenRun : Action
  | writeLauncherSource : Action
  | writeCompileScript : Action
  | runCompile : Action
  | deleteLauncherSource : Action
  | removeCompileScript : Action
deriving DecidableEq

inductive PkgError where
  | mainFileMissing : PkgError
  | qodeMissing : PkgError
  | nodeguiMissing : PkgError
  | ioFailure : PkgError
deriving DecidableEq

/-- The state of the world a packaging run sees. -/
structure Env where
  appName : String
  outputDirAbs : String
  mainFileExists : Bool
  qodeExists : Bool
  nodeguiExists : Bool
  pkgManifest : Option Manifest
  additionalModules : List String
  modules : Root
  onDisk : List String
  miniqtExists : Bool
  qtVersions : List String
  binDirExists : Bool
  binFiles : List String
  pluginsPresent : List String
  compileOk : Bool
deriving DecidableEq

/-- Direct dependencies read from the project package.json: missing or
unparseable manifests yield the empty list with a warning. -/
def projectDirectDeps (e : Env) : List String :=
  match e.pkgManifest with
  | some (Manifest.deps ds) => ds
  | _ => []

def docASeeds (e : Env) : List String :=
  seedDependencies (projectDirectDeps e) e.additionalModules

def docAClosure (e : Env) : List String :=
  (resolveClosure e.modules (docASeeds e)).getD []

/-- The dependency copy loop: every closure member found on disk is copied;
the others are only warned about. -/
def depActs (e : Env) : List Action :=
  ((docAClosure e).filter (fun d => d ∈ e.onDisk)).map Action.copyDep

def pluginDirs : List String := ["platforms", "styles", "imageformats"]

/-- Qt staging: skipped wholesale when miniqt is absent or lists no
version; otherwise the .dll files of the bin directory, then each plugin
directory that exists, then qt.conf. -/
def qtActs (e : Env) : List Action :=
  if e.miniqtExists then
    match e.qtVersions with
    | [] => []
    | _ :: _ =>
      ((e.binFiles.filter (fun f => strEndsWith f ".dll")).map Action.copyDll)
        ++ ((pluginDirs.filter (fun p => p ∈ e.pluginsPresent)).map Action.copyPlugin)
        ++ [Action.writeQtConf]
  else []

def launcherActs : List Action :=
  [Action.writeDebugBat, Action.writeHiddenRun, Action.writeLauncherSource,
    Action.writeCompileScript, Action.runCompile]

/-- The compile step: on success the batch script deletes the launcher
source and the orchestrator removes the script; on failure both stay on
disk and only a warning is logged. -/
def compileActs (e : Env) : List Action :=
  if e.compileOk then [Action.deleteLauncherSource, Action.removeCompileScript] else []

def preActs : List Action :=
  [Action.ensureAppDir, Action.emptyAppDir, Action.copyProjectTree, Action.ensureNodeModules]

def appDirOf (e : Env) : String := e.outputDirAbs ++ pathSep ++ e.appName

/-- The trace of the recursive-copy `packageApp` (src/unnamed/part_001,
first document): ensure and empty the application directory, copy the
project tree, ensure node_modules, copy qode.exe (fatal if absent), copy
the @nodegui namespace (fatal if absent), copy the resolved dependency
closure, stage Qt (reading the bin directory is fatal if it is missing
while miniqt lists a version), emit the launcher artifacts, try to compile
(non-fatal), and return the application directory path. -/
def packageAppTrace (e : Env) : List Action × Except PkgError String :=
  if e.qodeExists = false then (preActs, Except.error PkgError.qodeMissing)
  else if e.nodeguiExists = false then
    (preActs ++ [Action.copyQode], Except.error PkgError.nodeguiMissing)
  else if e.miniqtExists && !e.qtVersions.isEmpty && !e.binDirExists then
    (preActs ++ [Action.copyQode, Action.copyNodeguiNamespace] ++ depActs e,
      Except.error PkgError.ioFailure)
  else
    (preActs ++ [Action.copyQode, Action.copyNodeguiNamespace]
        ++ depActs e ++ qtActs e ++ launcherActs ++ compileActs e,
      Except.ok (appDirOf e))

/-- index.js copies only the direct dependencies (no nested walk). -/
def indexDepActs (e : Env) : List Action :=
  ((docASeeds e).filter (fun d => d ∈ e.onDisk)).map Action.copyDep

def indexPre : List Action := [Action.ensureAppDir, Action.emptyAppDir]

/-- The trace of src/index.js `packageApp`: ensure and empty the
application directory, then check that the entry file exists — throwing
before any copy when it does not — then copy the main file, qode.exe, the
@nodegui namespace, the direct dependencies, Qt assets and launcher
artifacts. -/
def indexPackageAppTrace (e : Env) : List Action × Except PkgError String :=
  if e.mainFileExists = false then (indexPre, Except.error PkgError.mainFileMissing)
  else if e.qodeExists = false then
    (indexPre ++ [Action.copyMainFile, Action.ensureNodeModules],
      Except.error PkgError.qodeMissing)
  else if e.nodeguiExists = false then
    (indexPre ++ [Action.copyMainFile, Action.ensureNodeModules, Action.copyQode],
      Except.error PkgError.nodeguiMissing)
  else if e.miniqtExists && !e.qtVersions.isEmpty && !e.binDirExists then
    (indexPre ++ [Action.copyMainFile, Action.ensureNodeModules, Action.copyQode,
        Action.copyNodeguiNamespace] ++ indexDepActs e,
      Except.error PkgError.ioFailure)
  else
    (indexPre ++ [Action.copyMainFile, Action.ensureNodeModules, Action.copyQode,
        Action.copyNodeguiNamespace] ++ indexDepActs e ++ qtActs e ++ launcherActs
        ++ compileActs e,
      Except.ok (appDirOf e))

def isCopyAction : Action → Bool
  | .copyProjectTree => true
  | .copyMainFile => true
  | .copyQode => true
  | .copyNodeguiNamespace => true
  | .copyDep _ => true
  | .copyDll _ => true
  | .copyPlugin _ => true
  | _ => false

/-- The names an action materializes in the application directory. -/
def actionWrites : Action → List String
  | .ensureAppDir => []
  | .emptyAppDir => []
  | .copyProjectTree => ["<project-files>"]
  | .copyMainFile => ["<main-file>"]
  | .ensureNodeModules => ["node_modules"]
  | .copyQode => ["qode.exe"]
  | .copyNodeguiNamespace => ["node_modules/@nodegui"]
  | .copyDep n => ["node_modules/" ++ n]
  | .copyDll n => [n]
  | .copyPlugin n => [n]
  | .writeQtConf => ["qt.conf"]
  | .writeDebugBat => ["debug.bat"]
  | .writeHiddenRun => ["hidden-run.vbs"]
  | .writeLauncherSource => ["NodeGuiLauncher.c"]
  | .writeCompileScript => ["_compile.bat"]
  | .runCompile => []
  | .deleteLauncherSource => []
  | .removeCompileScript => []

/-- Effect of one action on the application directory's contents. -/
def applyAction (s : List String) : Action → List String
  | .emptyAppDir => []
  | .deleteLauncherSource => s.erase "NodeGuiLauncher.c"
  | .removeCompileScript => s.erase "_compile.bat"
  | a => s ++ actionWrites a

def applyActions (acts : List Action) (s : List String) : List String :=
  acts.foldl applyAction s

def finalFiles (e : Env) : List String := applyActions (packageAppTrace e).1 []

end NodeguiBuilder

namespace NodeguiBuilder

/-! ## Copier lemmas -/

theorem mem_filesOf_pref :
    ∀ (f : Forest) (rel p : List String), p ∈ filesOf rel f → rel <+: p := by
  intro f
  induction f with
  | nil => intro rel p h; simp [filesOf] at h
  | file n rest ih =>
    intro rel p h
    simp only [filesOf, List.mem_cons] at h
    rcases h with rfl | h
    · exact List.prefix_append rel [n]
    · exact ih rel p h
  | dir n ch rest ih_ch ih_rest =>
    intro rel p h
    simp only [filesOf, List.mem_append] at h
    rcases h with h | h
    · exact (List.prefix_append rel [n]).trans (ih_ch (rel ++ [n]) p h)
    · exact ih_rest rel p h

theorem take_of_mem_child {rel p : List String} {n : String} {ch : Forest}
    (hp : p ∈ filesOf (rel ++ [n]) ch) :
    p.take (rel.length + 1) = rel ++ [n] ∧ rel.length + 1 ≤ p.length := by
  have hpre := mem_filesOf_pref ch (rel ++ [n]) p hp
  have hlen : (rel ++ [n]).length = rel.length + 1 := by simp
  constructor
  · have := List.prefix_iff_eq_take.mp hpre
    rw [hlen] at this
    exact this.symm
  · have := hpre.length_le
    omega

theorem copy_mem_iff (ign : List String) :
    ∀ (f : Forest) (rel p : List String),
      p ∈ filesOf rel (copyDirRecursive ign rel f) ↔
        p ∈ filesOf rel f ∧ ∀ k, rel.length < k → k ≤ p.length →
          shouldIgnore ign (joinRel (p.take k)) = false := by
  intro f
  induction f with
  | nil => intro rel p; simp [copyDirRecursive, filesOf]
  | file n rest ih =>
    intro rel p
    simp only [copyDirRecursive]
    by_cases hig : shouldIgnore ign (joinRel (rel ++ [n])) = true
    · rw [if_pos hig, ih rel p]
      simp only [filesOf, List.mem_cons]
      constructor
      · rintro ⟨hp, hk⟩; exact ⟨Or.inr hp, hk⟩
      · rintro ⟨rfl | hp, hk⟩
        · exfalso
          have hfull : (rel ++ [n]).take (rel.length + 1) = rel ++ [n] := by
            have hlen : (rel ++ [n]).length = rel.length + 1 := by simp
            rw [← hlen, List.take_length]
          have hcl := hk (rel.length + 1) (by omega) (by simp)
          rw [hfull] at hcl
          rw [hcl] at hig
          exact Bool.false_ne_true hig
        · exact ⟨hp, hk⟩
    · have hig' : shouldIgnore ign (joinRel (rel ++ [n])) = false := by
        revert hig; cases shouldIgnore ign (joinRel (rel ++ [n])) <;> simp
      rw [if_neg hig]
      simp only [filesOf, List.mem_cons]
      rw [ih rel p]
      constructor
      · rintro (rfl | ⟨hp, hk⟩)
        · refine ⟨Or.inl rfl, ?_⟩
          intro k h1 h2
          have hlen : (rel ++ [n]).length = rel.length + 1 := by simp
          rw [hlen] at h2
          have hkk : k = rel.length + 1 := by omega
          subst hkk
          have hfull : (rel ++ [n]).take (rel.length + 1) = rel ++ [n] := by
            rw [← hlen, List.take_length]
          rw [hfull]
          exact hig'
        · exact ⟨Or.inr hp, hk⟩
      · rintro ⟨rfl | hp, hk⟩
        · exact Or.inl rfl
        · exact Or.inr ⟨hp, hk⟩
  | dir n ch rest ih_ch ih_rest =>
    intro rel p
    simp only [copyDirRecursive]
    by_cases hig : shouldIgnore ign (joinRel (rel ++ [n])) = true
    · rw [if_pos hig, ih_rest rel p]
      simp only [filesOf, List.mem_append]
      constructor
      · rintro ⟨hp, hk⟩; exact ⟨Or.inr hp, hk⟩
      · rintro ⟨hp | hp, hk⟩
        · exfalso
          obtain ⟨htake, hlen⟩ := take_of_mem_child hp
          have hcl := hk (rel.length + 1) (by omega) hlen
          rw [htake] at hcl
          rw [hcl] at hig
          exact Bool.false_ne_true hig
        · exact ⟨hp, hk⟩
    · have hig' : shouldIgnore ign (joinRel (rel ++ [n])) = false := by
        revert hig; cases shouldIgnore ign (joinRel (rel ++ [n])) <;> simp
      rw [if_neg hig]
      simp only [filesOf, List.mem_append]
      rw [ih_ch (rel ++ [n]) p, ih_rest rel p]
      constructor
      · rintro (⟨hp, hk⟩ | ⟨hp, hk⟩)
        · refine ⟨Or.inl hp, ?_⟩
          intro k h1 h2
          obtain ⟨htake, _⟩ := take_of_mem_child hp
          by_cases hkk : k = rel.length + 1
          · subst hkk; rw [htake]; exact hig'
          · refine hk k ?_ h2
            simp only [List.length_append, List.length_cons, List.length_nil]
            omega
        · exact ⟨Or.inr hp, hk⟩
      · rintro ⟨hp | hp, hk⟩
        · refine Or.inl ⟨hp, ?_⟩
          intro k h1 h2
          refine hk k ?_ h2
          simp only [List.length_append, List.length_cons, List.length_nil] at h1
          omega
        · exact Or.inr ⟨hp, hk⟩

end NodeguiBuilder

namespace NodeguiBuilder

/-! ## Resolver lemmas -/

theorem insertIfAbsent_mem_self (l : List String) (x : String) : x ∈ insertIfAbsent l x := by
  unfold insertIfAbsent
  split
  · assumption
  · simp

theorem insertIfAbsent_pref (l : List String) (x : String) : l <+: insertIfAbsent l x := by
  unfold insertIfAbsent
  split
  · exact List.prefix_refl l
  · exact List.prefix_append l [x]

theorem mem_insertIfAbsent {l : List String} {x y : String}
    (h : y ∈ insertIfAbsent l x) : y ∈ l ∨ y = x := by
  unfold insertIfAbsent at h
  split at h
  · exact Or.inl h
  · simpa using h

theorem phi_mono (R : Root) (v v' : List String) (h : v ⊆ v') : phi R v' ≤ phi R v := by
  induction R with
  | nil => simp [phi]
  | cons entry rest ih =>
    obtain ⟨k, man⟩ := entry
    simp only [phi]
    by_cases hk : k ∈ v
    · rw [if_pos hk, if_pos (h hk)]
      omega
    · rw [if_neg hk]
      have : (if k ∈ v' then 0 else manCost man) ≤ manCost man := by split <;> omega
      omega

theorem phi_drop (R : Root) (v : List String) (m : String) (man : Manifest)
    (hv : m ∉ v) (hl : lookupManifest R m = some man) :
    phi R (v ++ [m]) + manCost man ≤ phi R v := by
  induction R with
  | nil => simp [lookupManifest] at hl
  | cons entry rest ih =>
    obtain ⟨k, man'⟩ := entry
    simp only [lookupManifest] at hl
    simp only [phi]
    split at hl
    · rename_i hk
      rw [hk]
      injection hl with hl
      rw [hl]
      have h1 : m ∈ v ++ [m] := by simp
      rw [if_pos h1, if_neg hv]
      have h2 := phi_mono rest v (v ++ [m]) (List.subset_append_left v [m])
      omega
    · rename_i hk
      have hmem : (k ∈ v ++ [m]) ↔ k ∈ v := by
        simp only [List.mem_append, List.mem_singleton]
        constructor
        · rintro (h | rfl)
          · exact h
          · exact absurd rfl hk
        · exact Or.inl
      have ihh := ih hl
      by_cases hkv : k ∈ v
      · rw [if_pos hkv, if_pos (hmem.mpr hkv)]
        omega
      · rw [if_neg hkv, if_neg (fun h => hkv (hmem.mp h))]
        omega

theorem findF_mono_all (R : Root) :
    ∀ f : Nat,
      (∀ s m s', findNestedDependenciesF R f s m = some s' →
        s.visited <+: s'.visited ∧ s.found <+: s'.found) ∧
      (∀ s ds s', findNestedListF R f s ds = some s' →
        s.visited <+: s'.visited ∧ s.found <+: s'.found) := by
  intro f
  induction f with
  | zero =>
    constructor
    · intro s m s' h; simp [findNestedDependenciesF] at h
    · intro s ds s' h; simp [findNestedListF] at h
  | succ f ih =>
    constructor
    · intro s m s' h
      simp only [findNestedDependenciesF] at h
      split at h
      · injection h with h
        subst h
        exact ⟨List.prefix_refl _, List.prefix_refl _⟩
      · split at h
        · rename_i ds _
          have := ih.2 _ _ _ h
          exact ⟨(List.prefix_append s.visited [m]).trans this.1, this.2⟩
        · injection h with h
          subst h
          exact ⟨List.prefix_append s.visited [m], List.prefix_refl _⟩
    · intro s ds s' h
      match ds with
      | [] =>
        simp only [findNestedListF] at h
        injection h with h
        subst h
        exact ⟨List.prefix_refl _, List.prefix_refl _⟩
      | d :: rest =>
        simp only [findNestedListF] at h
        split at h
        · exact ih.2 _ _ _ h
        · cases hm : findNestedDependenciesF R f ⟨s.visited, insertIfAbsent s.found d⟩ d with
          | none => rw [hm] at h; simp at h
          | some s2 =>
            rw [hm] at h
            have h1 := ih.1 _ _ _ hm
            have h2 := ih.2 _ _ _ h
            exact ⟨h1.1.trans h2.1,
              ((insertIfAbsent_pref s.found d).trans h1.2).trans h2.2⟩

theorem findF_fuel_all (R : Root) :
    ∀ f : Nat,
      (∀ s m, phi R s.visited + 1 ≤ f →
        (findNestedDependenciesF R f s m).isSome = true) ∧
      (∀ s ds, phi R s.visited + ds.length + 1 ≤ f →
        (findNestedListF R f s ds).isSome = true) := by
  intro f
  induction f with
  | zero =>
    constructor
    · intro s m h; omega
    · intro s ds h; omega
  | succ f ih =>
    constructor
    · intro s m hf
      simp only [findNestedDependenciesF]
      split
      · simp
      · rename_i hv
        split
        · rename_i ds hl
          apply ih.2
          have hd := phi_drop R s.visited m (Manifest.deps ds) hv hl
          simp only [manCost] at hd
          simp only []
          omega
        · simp
    · intro s ds hf
      match ds with
      | [] => simp [findNestedListF]
      | d :: rest =>
        simp only [findNestedListF]
        split
        · apply ih.2
          simp only [List.length_cons] at hf
          omega
        · have h1 : (findNestedDependenciesF R f ⟨s.visited, insertIfAbsent s.found d⟩ d).isSome = true := by
            apply ih.1
            simp only [List.length_cons] at hf
            simp only []
            omega
          obtain ⟨s2, hs2⟩ := Option.isSome_iff_exists.mp h1
          rw [hs2]
          apply ih.2
          have hmono := ((findF_mono_all R f).1 _ _ _ hs2).1
          have hsub : phi R s2.visited ≤ phi R s.visited := by
            have := phi_mono R s.visited s2.visited hmono.subset
            simpa using this
          simp only [List.length_cons] at hf
          omega

theorem findF_nodup_all (R : Root) :
    ∀ f : Nat,
      (∀ s m s', findNestedDependenciesF R f s m = some s' →
        s.visited.Nodup → s'.visited.Nodup) ∧
      (∀ s ds s', findNestedListF R f s ds = some s' →
        s.visited.Nodup → s'.visited.Nodup) := by
  intro f
  induction f with
  | zero =>
    constructor
    · intro s m s' h; simp [findNestedDependenciesF] at h
    · intro s ds s' h; simp [findNestedListF] at h
  | succ f ih =>
    constructor
    · intro s m s' h hn
      simp only [findNestedDependenciesF] at h
      split at h
      · injection h with h; subst h; exact hn
      · rename_i hv
        have hn' : (s.visited ++ [m]).Nodup := by
          refine hn.append (List.nodup_singleton m) ?_
          intro a ha hb
          simp only [List.mem_singleton] at hb
          subst hb
          exact hv ha
        split at h
        · exact ih.2 _ _ _ h hn'
        · injection h with h; subst h; exact hn'
    · intro s ds s' h hn
      match ds with
      | [] =>
        simp only [findNestedListF] at h
        injection h with h; subst h; exact hn
      | d :: rest =>
        simp only [findNestedListF] at h
        split at h
        · exact ih.2 _ _ _ h hn
        · cases hm : findNestedDependenciesF R f ⟨s.visited, insertIfAbsent s.found d⟩ d with
          | none => rw [hm] at h; simp at h
          | some s2 =>
            rw [hm] at h
            exact ih.2 _ _ _ h (ih.1 _ _ _ hm hn)

/-- No reserved-namespace name in the list. -/
def noReserved (l : List String) : Prop :=
  ∀ d ∈ l, strStartsWith d reservedNamespace = false

theorem noReserved_insertIfAbsent {l : List String} {x : String}
    (hl : noReserved l) (hx : strStartsWith x reservedNamespace = false) :
    noReserved (insertIfAbsent l x) := by
  intro y hy
  rcases mem_insertIfAbsent hy with h | rfl
  · exact hl y h
  · exact hx

theorem findF_noReserved_all (R : Root) :
    ∀ f : Nat,
      (∀ s m s', findNestedDependenciesF R f s m = some s' →
        noReserved s.found → noReserved s'.found) ∧
      (∀ s ds s', findNestedListF R f s ds = some s' →
        noReserved s.found → noReserved s'.found) := by
  intro f
  induction f with
  | zero =>
    constructor
    · intro s m s' h; simp [findNestedDependenciesF] at h
    · intro s ds s' h; simp [findNestedListF] at h
  | succ f ih =>
    constructor
    · intro s m s' h hr
      simp only [findNestedDependenciesF] at h
      split at h
      · injection h with h; subst h; exact hr
      · split at h
        · exact ih.2 _ _ _ h hr
        · injection h with h; subst h; exact hr
    · intro s ds s' h hr
      match ds with
      | [] =>
        simp only [findNestedListF] at h
        injection h with h; subst h; exact hr
      | d :: rest =>
        simp only [findNestedListF] at h
        split at h
        · exact ih.2 _ _ _ h hr
        · rename_i hres
          have hres' : strStartsWith d reservedNamespace = false := by
            revert hres; cases strStartsWith d reservedNamespace <;> simp
          cases hm : findNestedDependenciesF R f ⟨s.visited, insertIfAbsent s.found d⟩ d with
          | none => rw [hm] at h; simp at h
          | some s2 =>
            rw [hm] at h
            exact ih.2 _ _ _ h (ih.1 _ _ _ hm (noReserved_insertIfAbsent hr hres'))

theorem runSeeds_isSome (R : Root) :
    ∀ (l : List String) (s : RState), (runSeeds R s l).isSome = true := by
  intro l
  induction l with
  | nil => intro s; simp [runSeeds]
  | cons d rest ih =>
    intro s
    have h1 : (findNestedDependenciesF R (phi R s.visited + 1) s d).isSome = true :=
      (findF_fuel_all R (phi R s.visited + 1)).1 s d (Nat.le_refl _)
    obtain ⟨s', hs'⟩ := Option.isSome_iff_exists.mp h1
    simp only [runSeeds, hs']
    exact ih s'

theorem runSeeds_found_pref (R : Root) :
    ∀ (l : List String) (s s' : RState), runSeeds R s l = some s' →
      s.found <+: s'.found := by
  intro l
  induction l with
  | nil =>
    intro s s' h
    simp only [runSeeds] at h
    injection h with h; subst h
    exact List.prefix_refl _
  | cons d rest ih =>
    intro s s' h
    simp only [runSeeds] at h
    cases hm : findNestedDependenciesF R (phi R s.visited + 1) s d with
    | none => rw [hm] at h; simp at h
    | some s1 =>
      rw [hm] at h
      exact (((findF_mono_all R _).1 _ _ _ hm).2).trans (ih s1 s' h)

theorem runSeeds_noReserved (R : Root) :
    ∀ (l : List String) (s s' : RState), runSeeds R s l = some s' →
      noReserved s.found → noReserved s'.found := by
  intro l
  induction l with
  | nil =>
    intro s s' h hr
    simp only [runSeeds] at h
    injection h with h; subst h; exact hr
  | cons d rest ih =>
    intro s s' h hr
    simp only [runSeeds] at h
    cases hm : findNestedDependenciesF R (phi R s.visited + 1) s d with
    | none => rw [hm] at h; simp at h
    | some s1 =>
      rw [hm] at h
      exact ih s1 s' h ((findF_noReserved_all R _).1 _ _ _ hm hr)

theorem seedDependencies_noReserved (pkgDeps additionalModules : List String) :
    noReserved (seedDependencies pkgDeps additionalModules) := by
  intro d hd
  simp only [seedDependencies, List.mem_filter] at hd
  have := hd.2
  revert this
  cases strStartsWith d reservedNamespace <;> simp

theorem resolveClosure_isSome (R : Root) (seeds : List String) :
    (resolveClosure R seeds).isSome = true := by
  obtain ⟨s', hs'⟩ := Option.isSome_iff_exists.mp (runSeeds_isSome R seeds ⟨[], seeds⟩)
  simp [resolveClosure, hs']

theorem resolveClosure_noReserved (R : Root) (pkgDeps additionalModules out : List String)
    (h : resolveClosure R (seedDependencies pkgDeps additionalModules) = some out) :
    noReserved out := by
  simp only [resolveClosure, Option.map_eq_some'] at h
  obtain ⟨s', hs', hfound⟩ := h
  subst hfound
  exact runSeeds_noReserved R _ _ _ hs'
    (seedDependencies_noReserved pkgDeps additionalModules)

end NodeguiBuilder

namespace NodeguiBuilder

/-! ## Claim theorems: resolver and copier -/

/-- Claim C1: for every lookup root and every seed set D (package.json
dependencies merged with additionalModules, reserved-namespace names
removed), the resolver's dependency closure is computed without error and
contains every seed name. -/
theorem claim_C1 (R : Root) (pkgDeps additionalModules : List String) (d : String)
    (hd : d ∈ seedDependencies pkgDeps additionalModules) :
    ∃ out, resolveClosure R (seedDependencies pkgDeps additionalModules) = some out ∧
      d ∈ out := by
  obtain ⟨s', hs'⟩ := Option.isSome_iff_exists.mp
    (runSeeds_isSome R (seedDependencies pkgDeps additionalModules)
      ⟨[], seedDependencies pkgDeps additionalModules⟩)
  refine ⟨s'.found, ?_, ?_⟩
  · simp [resolveClosure, hs']
  · exact (runSeeds_found_pref R _ _ _ hs').subset hd

/-- Witness for C1 on a cyclic two-package root. -/
theorem claim_C1_witness :
    "a" ∈ seedDependencies ["a"] [] ∧
    ∃ out, resolveClosure [("a", Manifest.deps ["b"]), ("b", Manifest.deps ["a"])]
      (seedDependencies ["a"] []) = some out ∧ "a" ∈ out :=
  ⟨by decide,
    claim_C1 [("a", Manifest.deps ["b"]), ("b", Manifest.deps ["a"])] ["a"] [] "a" (by decide)⟩

def cycRoot : Root := [("A", Manifest.deps ["B"]), ("B", Manifest.deps ["A"])]

/-- Claim C2: for every dependency graph — cyclic ones included — the
manifest walk terminates: fuel equal to the potential `phi` plus one always
suffices, the visited set never acquires a duplicate (each name is
processed at most once), and a call on an already-visited name returns the
state unchanged. -/
theorem claim_C2 (R : Root) (s : RState) (m : String) :
    (findNestedDependenciesF R (phi R s.visited + 1) s m).isSome = true ∧
    (∀ s', findNestedDependenciesF R (phi R s.visited + 1) s m = some s' →
      s.visited.Nodup → s'.visited.Nodup) ∧
    (m ∈ s.visited → findNestedDependenciesF R (phi R s.visited + 1) s m = some s) := by
  refine ⟨(findF_fuel_all R _).1 s m (Nat.le_refl _), ?_, ?_⟩
  · intro s' h hn
    exact (findF_nodup_all R _).1 s m s' h hn
  · intro hv
    simp [findNestedDependenciesF, hv]

/-- Witness for C2 on the cycle A→B→A. -/
theorem claim_C2_witness :
    (findNestedDependenciesF cycRoot (phi cycRoot [] + 1) ⟨[], []⟩ "A").isSome = true ∧
    findNestedDependenciesF cycRoot (phi cycRoot ["A"] + 1) ⟨["A"], []⟩ "A" = some ⟨["A"], []⟩ :=
  ⟨(claim_C2 cycRoot ⟨[], []⟩ "A").1, (claim_C2 cycRoot ⟨["A"], []⟩ "A").2.2 (by decide)⟩

/-- Claim C3: the copier produces exactly the files none of whose
root-relative path steps matches an exclusion (equality, or exclusion
followed by the separator); in particular excluding "build" excludes
"build" and "build/x" but not the sibling "build2". -/
theorem claim_C3 (ign : List String) (f : Forest) (p : List String) :
    (p ∈ filesOf [] (copyDirRecursive ign [] f) ↔
      p ∈ filesOf [] f ∧ ∀ k, 0 < k → k ≤ p.length →
        shouldIgnore ign (joinRel (p.take k)) = false) ∧
    shouldIgnore ["build"] "build2" = false ∧
    shouldIgnore ["build"] "build" = true ∧
    shouldIgnore ["build"] ("build" ++ pathSep ++ "x") = true := by
  refine ⟨?_, by decide, by decide, by decide⟩
  exact copy_mem_iff ign f [] p

/-- Witness for C3: the prefix-awareness instance. -/
theorem claim_C3_witness : shouldIgnore ["build"] "build2" = false :=
  (claim_C3 ["build"] Forest.nil []).2.1

/-- Claim C4: a package whose manifest is missing or malformed is treated
as a leaf — the walk returns successfully having only marked it visited,
adding nothing to the result set — and every non-reserved dependency
discovered by the walk is in the final result set whatever its manifest
looks like. -/
theorem claim_C4 (R : Root) (f : Nat) (s : RState) (m : String) :
    ((lookupManifest R m = none ∨ lookupManifest R m = some Manifest.malformed) →
      findNestedDependenciesF R (f + 1) s m =
        some (if m ∈ s.visited then s else ⟨s.visited ++ [m], s.found⟩)) ∧
    (∀ (d : String) (rest : List String) (s' : RState),
      strStartsWith d reservedNamespace = false →
      findNestedListF R (f + 1) s (d :: rest) = some s' →
      d ∈ s'.found) := by
  constructor
  · intro hleaf
    by_cases hv : m ∈ s.visited
    · simp [findNestedDependenciesF, hv]
    · rcases hleaf with hl | hl <;> simp [findNestedDependenciesF, hv, hl]
  · intro d rest s' hres h
    simp only [findNestedListF, hres] at h
    cases hm : findNestedDependenciesF R f ⟨s.visited, insertIfAbsent s.found d⟩ d with
    | none => rw [hm] at h; simp at h
    | some s2 =>
      rw [hm] at h
      have h1 : d ∈ s2.found :=
        (((findF_mono_all R f).1 _ _ _ hm).2).subset (insertIfAbsent_mem_self s.found d)
      exact (((findF_mono_all R f).2 _ _ _ h).2).subset h1

/-- Witness for C4: a package absent from the root is a leaf. -/
theorem claim_C4_witness :
    findNestedDependenciesF [] 1 ⟨[], []⟩ "x" = some ⟨["x"], []⟩ :=
  (claim_C4 [] 0 ⟨[], []⟩ "x").1 (Or.inl rfl)

theorem copyDep_mem_closure (e : Env) (d : String)
    (h : Action.copyDep d ∈ (packageAppTrace e).1) : d ∈ docAClosure e := by
  have hqt : Action.copyDep d ∉ qtActs e := by
    simp only [qtActs]
    split
    · split <;> simp
    · simp
  have hcomp : Action.copyDep d ∉ compileActs e := by
    simp only [compileActs]
    split <;> simp
  have hdep : Action.copyDep d ∈ depActs e → d ∈ docAClosure e := by
    intro hh
    simp only [depActs, List.mem_map] at hh
    obtain ⟨a, ha, heq⟩ := hh
    injection heq with heq
    subst heq
    exact (List.mem_filter.mp ha).1
  simp only [packageAppTrace] at h
  split at h
  · simp [preActs] at h
  · split at h
    · simp [preActs] at h
    · split at h
      · rcases List.mem_append.mp h with h | h
        · rcases List.mem_append.mp h with h | h
          · simp [preActs] at h
          · simp at h
        · exact hdep h
      · rcases List.mem_append.mp h with h | h
        · rcases List.mem_append.mp h with h | h
          · rcases List.mem_append.mp h with h | h
            · rcases List.mem_append.mp h with h | h
              · rcases List.mem_append.mp h with h | h
                · simp [preActs] at h
                · simp at h
              · exact hdep h
            · exact absurd h hqt
          · simp [launcherActs] at h
        · exact absurd h hcomp

/-- Claim C5: no reserved-namespace (`@nodegui/`) name is ever in the
resolved closure, and no reserved-namespace name is ever copied by the
generic dependency copy path of `packageApp`. -/
theorem claim_C5 :
    (∀ (R : Root) (pkgDeps additionalModules out : List String),
      resolveClosure R (seedDependencies pkgDeps additionalModules) = some out →
      ∀ d ∈ out, strStartsWith d reservedNamespace = false) ∧
    (∀ (e : Env) (d : String), Action.copyDep d ∈ (packageAppTrace e).1 →
      strStartsWith d reservedNamespace = false) := by
  constructor
  · intro R pkg add out h d hd
    exact resolveClosure_noReserved R pkg add out h d hd
  · intro e d h
    have hc := copyDep_mem_closure e d h
    obtain ⟨out, hout⟩ := Option.isSome_iff_exists.mp
      (resolveClosure_isSome e.modules (docASeeds e))
    have hout' : resolveClosure e.modules
        (seedDependencies (projectDirectDeps e) e.additionalModules) = some out := hout
    have hgd : docAClosure e = out := by simp [docAClosure, hout]
    rw [hgd] at hc
    exact resolveClosure_noReserved e.modules (projectDirectDeps e) e.additionalModules
      out hout' d hc

/-- Witness for C5 at a concrete closure. -/
theorem claim_C5_witness : strStartsWith "lodash" reservedNamespace = false :=
  claim_C5.1 [] ["lodash"] [] ["lodash"] (by decide) "lodash" (by decide)

end NodeguiBuilder

namespace NodeguiBuilder

/-! ## Claim theorems: orchestrator -/

/-- Claim C6 (src/index.js): when the entry file does not exist, packaging
fails with the main-file error, and the trace up to that point holds only
the ensure/empty steps for the application directory — no copy of project
files has been performed. -/
theorem claim_C6 (e : Env) (h : e.mainFileExists = false) :
    (indexPackageAppTrace e).2 = Except.error PkgError.mainFileMissing ∧
    (indexPackageAppTrace e).1 = [Action.ensureAppDir, Action.emptyAppDir] ∧
    ∀ a ∈ (indexPackageAppTrace e).1, isCopyAction a = false := by
  have ht : indexPackageAppTrace e = (indexPre, Except.error PkgError.mainFileMissing) := by
    simp [indexPackageAppTrace, h]
  refine ⟨by rw [ht], by rw [ht]; rfl, ?_⟩
  rw [ht]
  intro a ha
  simp only [indexPre, List.mem_cons, List.not_mem_nil, or_false] at ha
  rcases ha with rfl | rfl <;> rfl

/-- Claim C7: the interpreter executable and the runtime namespace are
mandatory (their absence yields an error outcome), while absence of the
shared-library bundle or of any plugin directory leaves the outcome
successful. -/
theorem claim_C7 (e : Env) :
    (e.qodeExists = false → (packageAppTrace e).2 = Except.error PkgError.qodeMissing) ∧
    (e.qodeExists = true → e.nodeguiExists = false →
      (packageAppTrace e).2 = Except.error PkgError.nodeguiMissing) ∧
    (e.qodeExists = true → e.nodeguiExists = true → e.miniqtExists = false →
      (packageAppTrace e).2 = Except.ok (appDirOf e)) ∧
    (e.qodeExists = true → e.nodeguiExists = true → e.binDirExists = true →
      (packageAppTrace e).2 = Except.ok (appDirOf e)) := by
  refine ⟨?_, ?_, ?_, ?_⟩ <;> intros <;> simp [packageAppTrace, *]

/-- Claim C8: when the compile step fails, packaging still succeeds with
the application directory path, and the launcher source and compile script
are still present among the final files. -/
theorem claim_C8 (e : Env) (h1 : e.qodeExists = true) (h2 : e.nodeguiExists = true)
    (h3 : e.binDirExists = true) (h4 : e.compileOk = false) :
    (packageAppTrace e).2 = Except.ok (appDirOf e) ∧
    "NodeGuiLauncher.c" ∈ finalFiles e ∧
    "_compile.bat" ∈ finalFiles e := by
  have ht : packageAppTrace e =
      (preActs ++ [Action.copyQode, Action.copyNodeguiNamespace]
        ++ depActs e ++ qtActs e ++ launcherActs ++ compileActs e,
        Except.ok (appDirOf e)) := by
    simp [packageAppTrace, h1, h2, h3]
  have hcomp : compileActs e = [] := by simp [compileActs, h4]
  refine ⟨by rw [ht], ?_, ?_⟩ <;>
  · simp only [finalFiles, ht, hcomp, List.append_nil, applyActions, List.foldl_append]
    simp [launcherActs, applyAction, actionWrites]

/-- Claim C9: every packaging run begins by ensuring and then emptying the
application directory, and the final contents of the application directory
are independent of whatever was there before the run (so a second run
leaves no leftovers from the first). -/
theorem claim_C9 (e : Env) (s₁ s₂ : List String) :
    (packageAppTrace e).1.take 2 = [Action.ensureAppDir, Action.emptyAppDir] ∧
    applyActions (packageAppTrace e).1 s₁ = applyActions (packageAppTrace e).1 s₂ := by
  constructor
  · simp only [packageAppTrace]
    split
    · rfl
    · split
      · rfl
      · split <;> rfl
  · simp only [packageAppTrace]
    split
    · rfl
    · split
      · rfl
      · split <;> rfl

/-! ## Claim C10 -/

theorem commonLen_self : ∀ l : List String, commonLen l l = l.length := by
  intro l
  induction l with
  | nil => rfl
  | cons a as ih => simp [commonLen, ih]

theorem pathRelative_self (s : String) : pathRelative s s = "" := by
  unfold pathRelative
  rw [commonLen_self]
  simp [List.drop_length, joinRel]

/-- Counterexample to claim C10 as stated: with the output directory equal
to the source directory and application name "node_modules", no output
exclusion entry is added (the exclusion list is exactly the fixed one), yet
the application directory is NOT traversed by the project copy step — its
entry matches the fixed "node_modules" exclusion and is skipped. -/
theorem claim_C10_counterexample :
    computeIgnoredDirs "/proj" "/proj" "node_modules" = baseIgnoredDirs ∧
    shouldIgnore (computeIgnoredDirs "/proj" "/proj" "node_modules") "node_modules" = true ∧
    copyDirRecursive (computeIgnoredDirs "/proj" "/proj" "node_modules") []
      (Forest.dir "node_modules" (Forest.file "index.js" Forest.nil) Forest.nil) =
      Forest.nil := by
  decide

/-- Claim C10, amended: the relative path from a directory to itself is
empty; when output equals source no output-exclusion entry is added; in
that case the application directory's entry is traversed by the copy step
provided its name does not match a fixed exclusion entry; an
output-exclusion entry is only ever added when the relative path from
source to output is nonempty; and no entry is added when the computed
application directory lies outside the source tree. -/
theorem claim_C10_amended (s o n : String) :
    pathRelative s s = "" ∧
    (o = s → computeIgnoredDirs s o n = baseIgnoredDirs) ∧
    (o = s → shouldIgnore baseIgnoredDirs n = false →
      shouldIgnore (computeIgnoredDirs s o n) n = false) ∧
    (computeIgnoredDirs s o n ≠ baseIgnoredDirs → pathRelative s o ≠ "") ∧
    ((strStartsWith (o ++ pathSep ++ n) (s ++ pathSep)
        || (o ++ pathSep ++ n) == s) = false →
      computeIgnoredDirs s o n = baseIgnoredDirs) := by
  have hself := pathRelative_self s
  refine ⟨hself, ?_, ?_, ?_, ?_⟩
  · rintro rfl
    simp [computeIgnoredDirs, hself]
  · rintro rfl hb
    have hbase : computeIgnoredDirs o o n = baseIgnoredDirs := by
      simp [computeIgnoredDirs, pathRelative_self o]
    rw [hbase]
    exact hb
  · intro hne hrel
    exact hne (by simp [computeIgnoredDirs, hrel])
  · intro hg
    simp [computeIgnoredDirs, hg]

/-- Witness for the amended C10. -/
theorem claim_C10_witness :
    computeIgnoredDirs "/proj" "/proj" "App" = baseIgnoredDirs ∧
    shouldIgnore (computeIgnoredDirs "/proj" "/proj" "App") "App" = false :=
  ⟨(claim_C10_amended "/proj" "/proj" "App").2.1 rfl,
    (claim_C10_amended "/proj" "/proj" "App").2.2.1 rfl (by decide)⟩

/-! ## Concrete environments and remaining witnesses -/

/-- A healthy environment whose compile step fails. -/
def envOk : Env :=
  Env.mk "App" "/out" true true true none [] [] [] false [] true [] [] false

/-- As `envOk` but the entry file is missing. -/
def envNoMain : Env :=
  Env.mk "App" "/out" false true true none [] [] [] false [] true [] [] false

/-- As `envOk` but qode.exe is missing. -/
def envNoQode : Env :=
  Env.mk "App" "/out" true false true none [] [] [] false [] true [] [] false

/-- Witness for C6. -/
theorem claim_C6_witness :
    (indexPackageAppTrace envNoMain).2 = Except.error PkgError.mainFileMissing ∧
    (indexPackageAppTrace envNoMain).1 = [Action.ensureAppDir, Action.emptyAppDir] ∧
    ∀ a ∈ (indexPackageAppTrace envNoMain).1, isCopyAction a = false :=
  claim_C6 envNoMain rfl

/-- Witness for C7: missing qode is fatal, a healthy run succeeds. -/
theorem claim_C7_witness :
    (packageAppTrace envNoQode).2 = Except.error PkgError.qodeMissing ∧
    (packageAppTrace envOk).2 = Except.ok (appDirOf envOk) :=
  ⟨(claim_C7 envNoQode).1 rfl, (claim_C7 envOk).2.2.2 rfl rfl rfl⟩

/-- Witness for C8. -/
theorem claim_C8_witness :
    (packageAppTrace envOk).2 = Except.ok (appDirOf envOk) ∧
    "NodeGuiLauncher.c" ∈ finalFiles envOk ∧
    "_compile.bat" ∈ finalFiles envOk :=
  claim_C8 envOk rfl rfl rfl rfl

/-- Witness for C9, with different pre-existing contents. -/
theorem claim_C9_witness :
    (packageAppTrace envOk).1.take 2 = [Action.ensureAppDir, Action.emptyAppDir] ∧
    applyActions (packageAppTrace envOk).1 ["leftover"] =
      applyActions (packageAppTrace envOk).1 [] :=
  claim_C9 envOk ["leftover"] []

end NodeguiBuilder
